import Mathlib

/-!
Shallow embedding of DistroDrive (a Linux-distribution catalogue web app):
the distro-matcher (client/src/lib/distroMatcher.ts and the static tag map
client/src/data/distro-tags.ts), the storage layer (server/storage.ts over an
in-memory relational model of the Postgres tables in shared/schema.ts), the
route handler for GET /api/distributions/:id (server/routes.ts), and the
per-URL classification logic of the link auditor (scripts/verify_links.ts).

Modelling conventions:
* JavaScript numbers that hold integral values become `Nat`/`Int`.
* `Array.prototype.sort` (stable since ES2019) is modelled by the stable
  `List.insertionSort` with the relation `compare a b <= 0`; under a
  consistent comparator the stable sorted permutation is unique, so any
  stable sort models it exactly.
* `new Date(s).getTime()` for the version-string tie-break is a JS runtime
  builtin, not repository code; it is passed in as an arbitrary total
  function `getTime : String -> Int` (the NaN result of an unparseable
  string is not modelled).
* Database `timestamp` columns are modelled as `Nat` epoch values, so
  `new Date(ts).getTime()` on them is the identity.
-/

namespace Matcher

/-- `ExperienceLevel` from client/src/data/distro-tags.ts. -/
inductive ExperienceLevel
  | beginner | intermediate | expert
deriving DecidableEq, Repr

/-- `UseCase` from client/src/data/distro-tags.ts. -/
inductive UseCase
  | gaming | server | desktop | privacy | development
deriving DecidableEq, Repr

/-- `Hardware` from client/src/data/distro-tags.ts. -/
inductive Hardware
  | lowEnd | modern
deriving DecidableEq, Repr

/-- The string value of an `ExperienceLevel` literal in the TS source. -/
def ExperienceLevel.str : ExperienceLevel → String
  | .beginner => "beginner"
  | .intermediate => "intermediate"
  | .expert => "expert"

/-- The string value of a `UseCase` literal in the TS source. -/
def UseCase.str : UseCase → String
  | .gaming => "gaming"
  | .server => "server"
  | .desktop => "desktop"
  | .privacy => "privacy"
  | .development => "development"

/-- The string value of a `Hardware` literal in the TS source. -/
def Hardware.str : Hardware → String
  | .lowEnd => "low-end"
  | .modern => "modern"

/-- `DistroTags` from client/src/data/distro-tags.ts. -/
structure DistroTags where
  experience : List ExperienceLevel
  useCases : List UseCase
  hardware : List Hardware
deriving DecidableEq, Repr

open ExperienceLevel UseCase Hardware in
/-- `distroTagsMap` from client/src/data/distro-tags.ts, entry for entry. -/
def distroTagsMap : String → Option DistroTags
  | "Ubuntu" => some ⟨[beginner, intermediate], [desktop, gaming, server, development], [modern]⟩
  | "Fedora" => some ⟨[intermediate, expert], [desktop, development, server], [modern]⟩
  | "Debian" => some ⟨[intermediate, expert], [server, desktop, development], [lowEnd, modern]⟩
  | "Arch Linux" => some ⟨[expert], [desktop, development], [modern]⟩
  | "Linux Mint" => some ⟨[beginner], [desktop], [lowEnd, modern]⟩
  | "Pop!_OS" => some ⟨[beginner, intermediate], [gaming, desktop, development], [modern]⟩
  | "openSUSE Tumbleweed" => some ⟨[intermediate, expert], [desktop, development], [modern]⟩
  | "openSUSE Leap" => some ⟨[intermediate], [server, desktop], [modern]⟩
  | "Elementary OS" => some ⟨[beginner], [desktop], [modern]⟩
  | "Zorin OS" => some ⟨[beginner], [desktop, gaming], [lowEnd, modern]⟩
  | "MX Linux" => some ⟨[beginner, intermediate], [desktop], [lowEnd]⟩
  | "EndeavourOS" => some ⟨[intermediate, expert], [desktop, development], [modern]⟩
  | "Garuda Linux" => some ⟨[intermediate], [gaming, desktop], [modern]⟩
  | "Solus" => some ⟨[beginner, intermediate], [desktop], [modern]⟩
  | "Kali Linux" => some ⟨[expert], [privacy, development], [modern]⟩
  | "Kubuntu" => some ⟨[beginner, intermediate], [desktop], [modern]⟩
  | "Xubuntu" => some ⟨[beginner, intermediate], [desktop], [lowEnd]⟩
  | "Lubuntu" => some ⟨[beginner], [desktop], [lowEnd]⟩
  | "Ubuntu MATE" => some ⟨[beginner, intermediate], [desktop], [lowEnd, modern]⟩
  | "Ubuntu Studio" => some ⟨[intermediate], [desktop, development], [modern]⟩
  | "CentOS Stream" => some ⟨[intermediate, expert], [server], [modern]⟩
  | "Rocky Linux" => some ⟨[intermediate, expert], [server], [modern]⟩
  | "AlmaLinux" => some ⟨[intermediate, expert], [server], [modern]⟩
  | "Void Linux" => some ⟨[expert], [desktop, development], [lowEnd, modern]⟩
  | "Gentoo" => some ⟨[expert], [desktop, development], [modern]⟩
  | "Slackware" => some ⟨[expert], [server, desktop], [lowEnd, modern]⟩
  | "NixOS" => some ⟨[expert], [development, server], [modern]⟩
  | "Tails" => some ⟨[intermediate, expert], [privacy], [lowEnd, modern]⟩
  | "Qubes OS" => some ⟨[expert], [privacy], [modern]⟩
  | "Parrot OS" => some ⟨[intermediate, expert], [privacy, development], [modern]⟩
  | "Peppermint OS" => some ⟨[beginner], [desktop], [lowEnd]⟩
  | "antiX" => some ⟨[intermediate], [desktop], [lowEnd]⟩
  | "Bodhi Linux" => some ⟨[beginner, intermediate], [desktop], [lowEnd]⟩
  | "Deepin" => some ⟨[beginner], [desktop], [modern]⟩
  | "KDE neon" => some ⟨[intermediate], [desktop, development], [modern]⟩
  | "LMDE" => some ⟨[intermediate], [desktop], [lowEnd, modern]⟩
  | "Manjaro" => some ⟨[beginner, intermediate], [desktop, gaming], [modern]⟩
  | "ArcoLinux" => some ⟨[intermediate, expert], [desktop, development], [modern]⟩
  | "Artix Linux" => some ⟨[expert], [desktop, development], [modern]⟩
  | "Alpine Linux" => some ⟨[expert], [server], [lowEnd]⟩
  | "Clear Linux" => some ⟨[intermediate, expert], [server, development], [modern]⟩
  | "Mageia" => some ⟨[beginner, intermediate], [desktop], [modern]⟩
  | "PCLinuxOS" => some ⟨[beginner, intermediate], [desktop], [modern]⟩
  | "Puppy Linux" => some ⟨[intermediate], [desktop], [lowEnd]⟩
  | "Tiny Core Linux" => some ⟨[expert], [desktop], [lowEnd]⟩
  | "Fedora Silverblue" => some ⟨[intermediate, expert], [desktop, development], [modern]⟩
  | "openSUSE MicroOS" => some ⟨[expert], [server], [modern]⟩
  | "Vanilla OS" => some ⟨[intermediate], [desktop], [modern]⟩
  | "Nobara" => some ⟨[beginner, intermediate], [gaming, desktop], [modern]⟩
  | "Bazzite" => some ⟨[beginner, intermediate], [gaming], [modern]⟩
  | _ => none

/-- `MatcherInputs` from client/src/lib/distroMatcher.ts. -/
structure MatcherInputs where
  experience : ExperienceLevel
  useCases : List UseCase
  hardware : Hardware
deriving DecidableEq, Repr

/-- The fields of `DistributionWithLatestRelease` that the matcher reads
(`name` for the tag lookup and the final tie-break, `latestVersion` for the
date tie-break); the remaining columns are carried opaquely by `extra`. -/
structure MDistribution where
  name : String
  latestVersion : Option String
  extra : String := ""
deriving DecidableEq, Repr

/-- `ScoredDistribution` from client/src/lib/distroMatcher.ts. -/
structure ScoredDistribution where
  distribution : MDistribution
  score : Nat
  matchedTags : List String
deriving DecidableEq, Repr

/-- `WEIGHTS` from client/src/lib/distroMatcher.ts. -/
structure Weights where
  experience : Nat
  useCase : Nat
  hardware : Nat

/-- `WEIGHTS = { experience: 3, useCase: 2, hardware: 1 }`. -/
def WEIGHTS : Weights := ⟨3, 2, 1⟩

/-- The loop body of `scoreDistributions` for one distribution with known
tags: the experience check, the fold over the input use cases, and the
hardware check, accumulating `(score, matchedTags)` exactly as the TS code
mutates `score` and pushes onto `matchedTags`. -/
def scoreEntry (inputs : MatcherInputs) (tags : DistroTags) : Nat × List String :=
  let acc0 : Nat × List String :=
    if tags.experience.contains inputs.experience then
      (WEIGHTS.experience, [inputs.experience.str ++ " friendly"])
    else (0, [])
  let acc1 := inputs.useCases.foldl
    (fun acc useCase =>
      if tags.useCases.contains useCase then
        (acc.1 + WEIGHTS.useCase, acc.2 ++ [useCase.str])
      else acc) acc0
  if tags.hardware.contains inputs.hardware then
    (acc1.1 + WEIGHTS.hardware, acc1.2 ++ [inputs.hardware.str ++ " hardware"])
  else acc1

/-- The date key of the sort comparator:
`a.distribution.latestVersion ? new Date(a.distribution.latestVersion).getTime() : 0`.
`none` and the falsy empty string give `0`; otherwise the runtime's
`getTime` parse of the version string. -/
def dateKey (getTime : String → Int) (d : MDistribution) : Int :=
  match d.latestVersion with
  | some s => if s = "" then 0 else getTime s
  | none => 0

/-- The sort comparator of `scoreDistributions` as the boolean relation
`compare a b <= 0`: score descending, then date key descending, then name
ascending (`localeCompare` modelled as code-point order on strings). -/
def matchLE (getTime : String → Int) (a b : ScoredDistribution) : Bool :=
  if b.score ≠ a.score then
    decide (b.score < a.score)
  else if dateKey getTime b.distribution ≠ dateKey getTime a.distribution then
    decide (dateKey getTime b.distribution < dateKey getTime a.distribution)
  else
    decide (a.distribution.name ≤ b.distribution.name)

/-- `scoreDistributions` from client/src/lib/distroMatcher.ts: skip
distributions without a tag record, score the rest, keep positive scores,
and stable-sort with the comparator.  ES2019 `Array.prototype.sort` is a
stable sort under a consistent comparator, and a stable sorted permutation
is unique, so the stable `List.insertionSort` models it exactly. -/
def scoreDistributions (getTime : String → Int) (inputs : MatcherInputs)
    (distributions : List MDistribution) : List ScoredDistribution :=
  let scored := distributions.filterMap (fun distro =>
    match distroTagsMap distro.name with
    | none => none
    | some tags =>
      let r := scoreEntry inputs tags
      if r.1 > 0 then some ⟨distro, r.1, r.2⟩ else none)
  scored.insertionSort (fun a b => matchLE getTime a b = true)

/-- `getTopMatches` from client/src/lib/distroMatcher.ts
(`slice(0, count)` with default `count = 3`). -/
def getTopMatches (getTime : String → Int) (inputs : MatcherInputs)
    (distributions : List MDistribution) (count : Nat := 3) : List ScoredDistribution :=
  (scoreDistributions getTime inputs distributions).take count

end Matcher

namespace Matcher

/-- Closed form of the use-case loop of `scoreDistributions`: starting from
accumulator `acc` it adds `WEIGHTS.useCase` per matching input use case and
appends the matching use-case labels in input order. -/
theorem useCaseFold_eq (tags : DistroTags) (l : List UseCase) (acc : Nat × List String) :
    l.foldl (fun acc useCase =>
      if tags.useCases.contains useCase then
        (acc.1 + WEIGHTS.useCase, acc.2 ++ [useCase.str])
      else acc) acc
    = (acc.1 + WEIGHTS.useCase * l.countP (fun useCase => tags.useCases.contains useCase),
       acc.2 ++ (l.filter (fun useCase => tags.useCases.contains useCase)).map UseCase.str) := by
  induction l generalizing acc with
  | nil => simp only [List.foldl_nil, List.countP_nil, Nat.mul_zero, Nat.add_zero,
      List.filter_nil, List.map_nil, List.append_nil]
  | cons uc l ih =>
    rw [List.foldl_cons]
    by_cases h : tags.useCases.contains uc = true
    · rw [if_pos h, ih, List.countP_cons, if_pos h, List.filter_cons, if_pos h,
        List.map_cons, Prod.mk.injEq]
      constructor
      · ring
      · rw [List.append_assoc]
        rfl
    · rw [if_neg h, ih, List.countP_cons, if_neg h, Nat.add_zero, List.filter_cons, if_neg h]

/-- The score computed for one distribution is the weighted sum
3·[experience match] + 2·(number of matching input use cases) + 1·[hardware match]. -/
theorem scoreEntry_fst (inputs : MatcherInputs) (tags : DistroTags) :
    (scoreEntry inputs tags).1 =
      (if tags.experience.contains inputs.experience then WEIGHTS.experience else 0)
      + WEIGHTS.useCase * inputs.useCases.countP (fun useCase => tags.useCases.contains useCase)
      + (if tags.hardware.contains inputs.hardware then WEIGHTS.hardware else 0) := by
  simp only [scoreEntry, useCaseFold_eq]
  split_ifs <;> simp

/-- The matched-tag labels collected for one distribution: the experience
label, then the matching use-case labels in input order, then the hardware
label. -/
theorem scoreEntry_snd (inputs : MatcherInputs) (tags : DistroTags) :
    (scoreEntry inputs tags).2 =
      (if tags.experience.contains inputs.experience then [inputs.experience.str ++ " friendly"] else [])
      ++ (inputs.useCases.filter (fun useCase => tags.useCases.contains useCase)).map UseCase.str
      ++ (if tags.hardware.contains inputs.hardware then [inputs.hardware.str ++ " hardware"] else []) := by
  simp only [scoreEntry, useCaseFold_eq]
  split_ifs <;> simp

/-- Decomposition of membership in the matcher result: every returned entry
comes from an input distribution with a tag record, carries that record's
score and matched tags, and the score is positive. -/
theorem mem_scoreDistributions {getTime : String → Int} {inputs : MatcherInputs}
    {ds : List MDistribution} {e : ScoredDistribution}
    (he : e ∈ scoreDistributions getTime inputs ds) :
    e.distribution ∈ ds ∧ ∃ tags, distroTagsMap e.distribution.name = some tags ∧
      e.score = (scoreEntry inputs tags).1 ∧ e.matchedTags = (scoreEntry inputs tags).2 ∧
      0 < e.score := by
  simp only [scoreDistributions] at he
  rw [List.mem_insertionSort] at he
  rw [List.mem_filterMap] at he
  obtain ⟨d, hd, hout⟩ := he
  rcases htags : distroTagsMap d.name with _ | tags
  · rw [htags] at hout
    simp at hout
  · rw [htags] at hout
    simp only [] at hout
    by_cases hpos : (scoreEntry inputs tags).1 > 0
    · rw [if_pos hpos, Option.some.injEq] at hout
      subst hout
      exact ⟨hd, tags, htags, rfl, rfl, hpos⟩
    · rw [if_neg hpos] at hout
      simp at hout

end Matcher

namespace Matcher

/-- The intended ordering of matcher results: score descending, then date
key descending, then name ascending.  `a` may come before `b` exactly when
this holds. -/
def sortKeyLE (getTime : String → Int) (a b : ScoredDistribution) : Prop :=
  b.score < a.score ∨
    (a.score = b.score ∧
      (dateKey getTime b.distribution < dateKey getTime a.distribution ∨
        (dateKey getTime a.distribution = dateKey getTime b.distribution ∧
          a.distribution.name ≤ b.distribution.name)))

/-- The boolean sort comparator agrees with `sortKeyLE`. -/
theorem matchLE_eq_true_iff (getTime : String → Int) (a b : ScoredDistribution) :
    matchLE getTime a b = true ↔ sortKeyLE getTime a b := by
  unfold matchLE sortKeyLE
  split_ifs with h1 h2
  · simp only [decide_eq_true_eq]
    constructor
    · exact Or.inl
    · rintro (h | ⟨h, _⟩)
      · exact h
      · exact absurd h.symm h1
  · simp only [decide_eq_true_eq]
    constructor
    · intro h
      exact Or.inr ⟨(not_ne_iff.mp h1).symm, Or.inl h⟩
    · rintro (h | ⟨_, h | ⟨h, _⟩⟩)
      · exact absurd (not_ne_iff.mp h1) (by omega)
      · exact h
      · exact absurd h.symm h2
  · simp only [decide_eq_true_eq]
    constructor
    · intro h
      exact Or.inr ⟨(not_ne_iff.mp h1).symm, Or.inr ⟨(not_ne_iff.mp h2).symm, h⟩⟩
    · rintro (h | ⟨he, h | ⟨_, h⟩⟩)
      · exact absurd (not_ne_iff.mp h1) (by omega)
      · exact absurd (not_ne_iff.mp h2) (by omega)
      · exact h

/-- `sortKeyLE` is total. -/
theorem sortKeyLE_total (getTime : String → Int) (a b : ScoredDistribution) :
    sortKeyLE getTime a b ∨ sortKeyLE getTime b a := by
  unfold sortKeyLE
  rcases Nat.lt_trichotomy a.score b.score with h | h | h
  · exact Or.inr (Or.inl h)
  · rcases Int.lt_trichotomy (dateKey getTime a.distribution) (dateKey getTime b.distribution) with h2 | h2 | h2
    · exact Or.inr (Or.inr ⟨h.symm, Or.inl h2⟩)
    · rcases le_total a.distribution.name b.distribution.name with h3 | h3
      · exact Or.inl (Or.inr ⟨h, Or.inr ⟨h2, h3⟩⟩)
      · exact Or.inr (Or.inr ⟨h.symm, Or.inr ⟨h2.symm, h3⟩⟩)
    · exact Or.inl (Or.inr ⟨h, Or.inl h2⟩)
  · exact Or.inl (Or.inl h)

/-- `sortKeyLE` is transitive. -/
theorem sortKeyLE_trans (getTime : String → Int) (a b c : ScoredDistribution)
    (hab : sortKeyLE getTime a b) (hbc : sortKeyLE getTime b c) :
    sortKeyLE getTime a c := by
  unfold sortKeyLE at *
  rcases hab with h | ⟨h1, hab⟩
  · rcases hbc with h' | ⟨h1', _⟩
    · exact Or.inl (by omega)
    · exact Or.inl (by omega)
  · rcases hbc with h' | ⟨h1', hbc⟩
    · exact Or.inl (by omega)
    · refine Or.inr ⟨by omega, ?_⟩
      rcases hab with h2 | ⟨h2, hab⟩
      · rcases hbc with h2' | ⟨h2', _⟩
        · exact Or.inl (by omega)
        · exact Or.inl (by omega)
      · rcases hbc with h2' | ⟨h2', hbc⟩
        · exact Or.inl (by omega)
        · exact Or.inr ⟨by omega, le_trans hab hbc⟩

end Matcher
namespace Matcher

/-- Claim C1: for every distribution whose tag record is in the static tag
map, `scoreDistributions` awards 3 points for an experience match, 2 per
matching input use case and 1 for a hardware match, sums them into the
entry's score and collects the matched-tag labels; and on the concrete
example (experience beginner, use cases [desktop], hardware low-end against
"Linux Mint", tagged exactly {experience:[beginner], useCases:[desktop],
hardware:[low-end,modern]}) the result has score 6 and matched tags
["beginner friendly", "desktop", "low-end hardware"]. -/
theorem scoreDistributions_weighted_scoring :
    (∀ (inputs : MatcherInputs) (tags : DistroTags),
      (scoreEntry inputs tags).1 =
        (if tags.experience.contains inputs.experience then WEIGHTS.experience else 0)
        + WEIGHTS.useCase * inputs.useCases.countP (fun useCase => tags.useCases.contains useCase)
        + (if tags.hardware.contains inputs.hardware then WEIGHTS.hardware else 0)) ∧
    (∀ (inputs : MatcherInputs) (tags : DistroTags),
      (scoreEntry inputs tags).2 =
        (if tags.experience.contains inputs.experience then [inputs.experience.str ++ " friendly"] else [])
        ++ (inputs.useCases.filter (fun useCase => tags.useCases.contains useCase)).map UseCase.str
        ++ (if tags.hardware.contains inputs.hardware then [inputs.hardware.str ++ " hardware"] else [])) ∧
    (∀ (getTime : String → Int) (inputs : MatcherInputs) (ds : List MDistribution)
      (e : ScoredDistribution), e ∈ scoreDistributions getTime inputs ds →
      ∃ tags, distroTagsMap e.distribution.name = some tags ∧
        e.score = (scoreEntry inputs tags).1 ∧ e.matchedTags = (scoreEntry inputs tags).2) ∧
    scoreDistributions (fun _ => 0) ⟨.beginner, [.desktop], .lowEnd⟩ [⟨"Linux Mint", none, ""⟩]
      = [⟨⟨"Linux Mint", none, ""⟩, 6, ["beginner friendly", "desktop", "low-end hardware"]⟩] := by
  refine ⟨scoreEntry_fst, scoreEntry_snd, ?_, by decide⟩
  intro getTime inputs ds e he
  obtain ⟨_, tags, htags, h1, h2, _⟩ := mem_scoreDistributions he
  exact ⟨tags, htags, h1, h2⟩

/-- Witness for C1: the membership clause applied to the Linux Mint entry of
the concrete example. -/
theorem scoreDistributions_weighted_scoring_witness :
    (⟨⟨"Linux Mint", none, ""⟩, 6, ["beginner friendly", "desktop", "low-end hardware"]⟩ : ScoredDistribution)
        ∈ scoreDistributions (fun _ => 0) ⟨.beginner, [.desktop], .lowEnd⟩ [⟨"Linux Mint", none, ""⟩] ∧
    ∃ tags, distroTagsMap "Linux Mint" = some tags ∧
      (6 : Nat) = (scoreEntry ⟨.beginner, [.desktop], .lowEnd⟩ tags).1 ∧
      ["beginner friendly", "desktop", "low-end hardware"] = (scoreEntry ⟨.beginner, [.desktop], .lowEnd⟩ tags).2 :=
  ⟨by decide, scoreDistributions_weighted_scoring.2.2.1 (fun _ => 0) ⟨.beginner, [.desktop], .lowEnd⟩
    [⟨"Linux Mint", none, ""⟩] ⟨⟨"Linux Mint", none, ""⟩, 6, ["beginner friendly", "desktop", "low-end hardware"]⟩
    (by decide)⟩

/-- Claim C2: for every input and distribution list the matcher result is
sorted by score descending, breaking ties by the latest-release date key
descending and then by distribution name ascending; the comparator is a
total preorder, so the resulting order is deterministic. -/
theorem scoreDistributions_sorted (getTime : String → Int) (inputs : MatcherInputs)
    (ds : List MDistribution) :
    (scoreDistributions getTime inputs ds).Pairwise (sortKeyLE getTime) := by
  have h : List.Pairwise (fun a b => matchLE getTime a b = true)
      (scoreDistributions getTime inputs ds) := by
    simp only [scoreDistributions]
    haveI : IsTotal ScoredDistribution (fun a b => matchLE getTime a b = true) :=
      ⟨fun a b => by
        rw [matchLE_eq_true_iff, matchLE_eq_true_iff]
        exact sortKeyLE_total getTime a b⟩
    haveI : IsTrans ScoredDistribution (fun a b => matchLE getTime a b = true) :=
      ⟨fun a b c hab hbc => by
        rw [matchLE_eq_true_iff] at hab hbc ⊢
        exact sortKeyLE_trans getTime a b c hab hbc⟩
    exact List.sorted_insertionSort _ _
  exact h.imp (fun hab => (matchLE_eq_true_iff getTime _ _).mp hab)

end Matcher
namespace Matcher

/-- Claim C3: every entry returned by `scoreDistributions` has a strictly
positive score, and when no listed distribution's tag record intersects the
input in any of the three dimensions the result is the empty list. -/
theorem scoreDistributions_pos_and_empty :
    (∀ (getTime : String → Int) (inputs : MatcherInputs) (ds : List MDistribution)
      (e : ScoredDistribution), e ∈ scoreDistributions getTime inputs ds → 0 < e.score) ∧
    (∀ (getTime : String → Int) (inputs : MatcherInputs) (ds : List MDistribution),
      (∀ d ∈ ds, ∀ tags, distroTagsMap d.name = some tags →
        inputs.experience ∉ tags.experience ∧
        (∀ uc ∈ inputs.useCases, uc ∉ tags.useCases) ∧
        inputs.hardware ∉ tags.hardware) →
      scoreDistributions getTime inputs ds = []) := by
  constructor
  · intro getTime inputs ds e he
    exact (mem_scoreDistributions he).2.choose_spec.2.2.2
  · intro getTime inputs ds h
    simp only [scoreDistributions]
    have hnil : (ds.filterMap (fun distro =>
        match distroTagsMap distro.name with
        | none => none
        | some tags =>
          let r := scoreEntry inputs tags
          if r.1 > 0 then some (⟨distro, r.1, r.2⟩ : ScoredDistribution) else none)) = [] := by
      rw [List.filterMap_eq_nil_iff]
      intro d hd
      rcases htags : distroTagsMap d.name with _ | tags
      · rfl
      · obtain ⟨h1, h2, h3⟩ := h d hd tags htags
        have e1 : tags.experience.contains inputs.experience = false := by simpa using h1
        have e3 : tags.hardware.contains inputs.hardware = false := by simpa using h3
        have e2 : inputs.useCases.countP (fun useCase => tags.useCases.contains useCase) = 0 := by
          rw [List.countP_eq_zero]
          intro uc huc
          simpa using h2 uc huc
        have hz : (scoreEntry inputs tags).1 = 0 := by
          rw [scoreEntry_fst, e1, e2, e3]
          simp
        simp only [hz]
        rfl
    rw [hnil]
    rfl

/-- Witness for C3: the positive-score clause at the Linux Mint example
entry, and the empty-result clause for MX Linux queried with
(expert, [server], modern), which misses all three of its tag dimensions. -/
theorem scoreDistributions_pos_and_empty_witness :
    ((⟨⟨"Linux Mint", none, ""⟩, 6, ["beginner friendly", "desktop", "low-end hardware"]⟩ : ScoredDistribution)
        ∈ scoreDistributions (fun _ => 0) ⟨.beginner, [.desktop], .lowEnd⟩ [⟨"Linux Mint", none, ""⟩] ∧
      0 < (6 : Nat)) ∧
    scoreDistributions (fun _ => 0) ⟨.expert, [.server], .modern⟩ [⟨"MX Linux", none, ""⟩] = [] := by
  refine ⟨⟨by decide, ?_⟩, ?_⟩
  · exact scoreDistributions_pos_and_empty.1 (fun _ => 0) ⟨.beginner, [.desktop], .lowEnd⟩
      [⟨"Linux Mint", none, ""⟩] ⟨⟨"Linux Mint", none, ""⟩, 6, ["beginner friendly", "desktop", "low-end hardware"]⟩
      (by decide)
  · refine scoreDistributions_pos_and_empty.2 (fun _ => 0) ⟨.expert, [.server], .modern⟩
      [⟨"MX Linux", none, ""⟩] ?_
    intro d hd tags htags
    simp only [List.mem_singleton] at hd
    subst hd
    have hmx : distroTagsMap "MX Linux"
        = some ⟨[.beginner, .intermediate], [.desktop], [.lowEnd]⟩ := by decide
    rw [hmx, Option.some.injEq] at htags
    subst htags
    exact ⟨by decide, by decide, by decide⟩

/-- Claim C4: appending to the input use-case list one further use case that
is in the distribution's `useCases` tag list and was not already selected
increases that distribution's score by exactly 2. -/
theorem scoreEntry_monotone_useCase (inputs : MatcherInputs) (tags : DistroTags) (uc : UseCase)
    (h1 : tags.useCases.contains uc = true) (h2 : inputs.useCases.contains uc = false) :
    (scoreEntry { inputs with useCases := inputs.useCases ++ [uc] } tags).1
      = (scoreEntry inputs tags).1 + 2 := by
  rw [scoreEntry_fst, scoreEntry_fst]
  simp only [List.countP_append, List.countP_cons, List.countP_nil, h1, WEIGHTS]
  split_ifs <;> simp <;> omega

/-- Witness for C4: Linux Mint's tags with an empty selection extended by
the matching use case desktop. -/
theorem scoreEntry_monotone_useCase_witness :
    (⟨[.beginner], [.desktop], [.lowEnd, .modern]⟩ : DistroTags).useCases.contains UseCase.desktop = true ∧
    ([] : List UseCase).contains UseCase.desktop = false ∧
    (scoreEntry ⟨.beginner, [] ++ [.desktop], .lowEnd⟩ ⟨[.beginner], [.desktop], [.lowEnd, .modern]⟩).1
      = (scoreEntry ⟨.beginner, [], .lowEnd⟩ ⟨[.beginner], [.desktop], [.lowEnd, .modern]⟩).1 + 2 :=
  ⟨by decide, by decide,
    scoreEntry_monotone_useCase ⟨.beginner, [], .lowEnd⟩ ⟨[.beginner], [.desktop], [.lowEnd, .modern]⟩
      UseCase.desktop (by decide) (by decide)⟩

/-- Claim C5: `getTopMatches` returns exactly the first `count` entries of
`scoreDistributions` (all of them when fewer exist), in the same order, and
the default count is 3. -/
theorem getTopMatches_take (getTime : String → Int) (inputs : MatcherInputs)
    (ds : List MDistribution) (n : Nat) :
    getTopMatches getTime inputs ds n = (scoreDistributions getTime inputs ds).take n ∧
    getTopMatches getTime inputs ds = (scoreDistributions getTime inputs ds).take 3 ∧
    (getTopMatches getTime inputs ds n).length
      = min n (scoreDistributions getTime inputs ds).length :=
  ⟨rfl, rfl, by simp [getTopMatches]⟩

end Matcher

namespace Server

/-- A row of the `distributions` table (shared/schema.ts). -/
structure DistributionRow where
  id : Int
  name : String
  description : String
  websiteUrl : String
  logoUrl : Option String
  baseDistro : Option String
  desktopEnvironments : List String
deriving DecidableEq, Repr

/-- A row of the `releases` table (shared/schema.ts); `releaseDate` is the
timestamp column as an epoch value. -/
structure ReleaseRow where
  id : Int
  distroId : Int
  versionNumber : String
  releaseDate : Nat
  isLts : Bool
deriving DecidableEq, Repr

/-- A row of the `downloads` table (shared/schema.ts). -/
structure DownloadRow where
  id : Int
  releaseId : Int
  architecture : String
  isoUrl : String
  torrentUrl : Option String
  checksum : Option String
  downloadSize : Option String
deriving DecidableEq, Repr

/-- The database state read by the endpoints under verification: the three
joined tables.  (The `news`, `download_clicks` and `technical_specs` tables
are not touched by the verified operations.)  Row order models physical
row order, which Postgres preserves for the unordered `select` of
`getDownloadsByRelease`. -/
structure DB where
  distributions : List DistributionRow
  releases : List ReleaseRow
  downloads : List DownloadRow
deriving DecidableEq, Repr

/-- `DatabaseStorage.getDistributions`: all distributions ordered ascending
by name (collation modelled as code-point order). -/
def getDistributions (db : DB) : List DistributionRow :=
  db.distributions.insertionSort (fun a b => a.name ≤ b.name)

/-- `DatabaseStorage.getDownloadsByRelease`: downloads with the given
release id. -/
def getDownloadsByRelease (db : DB) (releaseId : Int) : List DownloadRow :=
  db.downloads.filter (fun d => decide (d.releaseId = releaseId))

/-- `ReleaseWithDownloads` from shared/schema.ts. -/
structure ReleaseWithDownloads where
  release : ReleaseRow
  downloads : List DownloadRow
deriving DecidableEq, Repr

/-- `DatabaseStorage.getReleasesByDistro`: releases of the distribution
ordered by release date descending, each with its downloads. -/
def getReleasesByDistro (db : DB) (distroId : Int) : List ReleaseWithDownloads :=
  ((db.releases.filter (fun r => decide (r.distroId = distroId))).insertionSort
      (fun a b => b.releaseDate ≤ a.releaseDate)).map
    (fun r => ⟨r, getDownloadsByRelease db r.id⟩)

/-- `DatabaseStorage.getDistribution`: the first row with the given id. -/
def getDistribution (db : DB) (id : Int) : Option DistributionRow :=
  db.distributions.find? (fun d => decide (d.id = id))

/-- `DistributionWithReleases` from shared/schema.ts. -/
structure DistributionWithReleases where
  distribution : DistributionRow
  releases : List ReleaseWithDownloads
deriving DecidableEq, Repr

/-- `DatabaseStorage.getDistributionWithReleases`. -/
def getDistributionWithReleases (db : DB) (id : Int) : Option DistributionWithReleases :=
  match getDistribution db id with
  | none => none
  | some d => some ⟨d, getReleasesByDistro db id⟩

/-- `DistributionWithLatestRelease` from shared/schema.ts. -/
structure DistributionWithLatestRelease where
  distribution : DistributionRow
  latestVersion : Option String
  isLatestLts : Bool
  availableArchitectures : List String
deriving DecidableEq, Repr

/-- `Set.add` followed by `Array.from`: a JS `Set` preserves insertion
order, so adding to the accumulator keeps the first occurrence. -/
def insertArch (acc : List String) (a : String) : List String :=
  if acc.contains a then acc else acc ++ [a]

/-- `DatabaseStorage.getDistributionsWithLatestRelease`: for each
distribution (ordered by name), re-sort its releases by date descending,
take the first as the latest release, and collect the architecture tags of
the downloads of all its releases in first-seen order; a distribution with
no releases gets `none`/`false`/`[]`.  The TS `length > 0` test is folded
into the match on the sorted list, which is empty iff the release list is. -/
def getDistributionsWithLatestRelease (db : DB) : List DistributionWithLatestRelease :=
  (getDistributions db).map (fun distro =>
    let distroReleases := getReleasesByDistro db distro.id
    match distroReleases.insertionSort
        (fun a b => b.release.releaseDate ≤ a.release.releaseDate) with
    | [] => ⟨distro, none, false, []⟩
    | latest :: _ =>
      ⟨distro, some latest.release.versionNumber, latest.release.isLts,
        distroReleases.foldl
          (fun acc r => r.downloads.foldl (fun acc2 d => insertArch acc2 d.architecture) acc) []⟩)

/-- One step of a naive substring check over character lists. -/
def charsInfix : List Char → List Char → Bool
  | p, [] => p.isEmpty
  | p, c :: t => p.isPrefixOf (c :: t) || charsInfix p t

/-- The `ilike '%query%'` filter condition: case-insensitive substring
(SQL wildcard characters inside the query itself are not modelled). -/
def ilikeContains (name query : String) : Bool :=
  charsInfix query.toLower.data name.toLower.data

/-- JS `String.prototype.trim` (a runtime builtin): strip whitespace from
both ends. -/
def jsTrim (s : String) : String :=
  ⟨((s.data.dropWhile (fun c => c.isWhitespace)).reverse.dropWhile
      (fun c => c.isWhitespace)).reverse⟩

/-- `DatabaseStorage.searchDistributions`: a blank (all-whitespace) query
short-circuits to `getDistributions` (`!query.trim()` is JS truthiness of
the trimmed string); otherwise a case-insensitive substring filter on the
name, ordered ascending by name. -/
def searchDistributions (db : DB) (query : String) : List DistributionRow :=
  if jsTrim query = "" then getDistributions db
  else (db.distributions.filter (fun d => ilikeContains d.name query)).insertionSort
    (fun a b => a.name ≤ b.name)

/-- The column assignment of `DatabaseStorage.updateDownloadUrl`: `isoUrl`
always; `torrentUrl` only when the argument was supplied. -/
def applyDownloadUpdate (isoUrl : String) (torrentUrl : Option String)
    (d : DownloadRow) : DownloadRow :=
  let newTorrent := match torrentUrl with
    | none => d.torrentUrl
    | some t => some t
  { d with isoUrl := isoUrl, torrentUrl := newTorrent }

/-- `DatabaseStorage.updateDownloadUrl`: update the rows matching the id,
returning the new table state and the first updated row (`returning()`). -/
def updateDownloadUrl (db : DB) (id : Int) (isoUrl : String)
    (torrentUrl : Option String) : DB × Option DownloadRow :=
  let newDownloads := db.downloads.map
    (fun d => if d.id = id then applyDownloadUpdate isoUrl torrentUrl d else d)
  (⟨db.distributions, db.releases, newDownloads⟩,
   (db.downloads.find? (fun d => decide (d.id = id))).map
     (applyDownloadUpdate isoUrl torrentUrl))

/-- The PATCH route's `torrentUrl || undefined` munging: an empty string
(falsy) or an absent field is passed to the storage layer as absent. -/
def routeTorrentArg (t : Option String) : Option String :=
  match t with
  | some "" => none
  | x => x

/-- The value of the longest leading decimal-digit prefix, `none` if there
is no leading digit. -/
def digitsVal (cs : List Char) : Option Nat :=
  let ds := cs.takeWhile (fun c => c.isDigit)
  if ds.isEmpty then none
  else some (ds.foldl (fun n c => n * 10 + (c.toNat - 48)) 0)

/-- JS `parseInt` on a decimal string: skip leading whitespace, optional
sign, then the longest digit prefix; `none` models `NaN`.  (The hex `0x`
prefix of `parseInt` is not modelled; route parameters are decimal ids.) -/
def parseIntJS (s : String) : Option Int :=
  match s.data.dropWhile (fun c => c.isWhitespace) with
  | '-' :: rest => (digitsVal rest).map (fun n => -(n : Int))
  | '+' :: rest => (digitsVal rest).map (fun n => (n : Int))
  | rest => (digitsVal rest).map (fun n => (n : Int))

/-- The GET /api/distributions/:id handler (server/routes.ts): status code,
response body, and whether a storage lookup was performed. -/
def handleGetDistribution (db : DB) (idParam : String) :
    Nat × Option DistributionWithReleases × Bool :=
  match parseIntJS idParam with
  | none => (400, none, false)
  | some id =>
    match getDistributionWithReleases db id with
    | none => (404, none, true)
    | some d => (200, some d, true)

end Server
namespace Server

theorem mem_archFold (dls : List DownloadRow) (acc : List String) (a : String) :
    a ∈ dls.foldl (fun acc2 d => insertArch acc2 d.architecture) acc ↔
      a ∈ acc ∨ ∃ d ∈ dls, d.architecture = a := by
  induction dls generalizing acc with
  | nil => simp
  | cons d dls ih =>
    rw [List.foldl_cons, ih]
    unfold insertArch
    by_cases h : acc.contains d.architecture
    · rw [if_pos h]
      have hm : d.architecture ∈ acc := by simpa using h
      constructor
      · rintro (ha | ⟨d2, hd2, hda⟩)
        · exact Or.inl ha
        · exact Or.inr ⟨d2, List.mem_cons_of_mem _ hd2, hda⟩
      · rintro (ha | ⟨d2, hd2, hda⟩)
        · exact Or.inl ha
        · rcases List.mem_cons.mp hd2 with h1 | h1
          · exact Or.inl (by rw [← hda, h1]; exact hm)
          · exact Or.inr ⟨d2, h1, hda⟩
    · rw [if_neg h]
      constructor
      · rintro (ha | ha)
        · rcases List.mem_append.mp ha with h1 | h1
          · exact Or.inl h1
          · exact Or.inr ⟨d, List.mem_cons_self _ _, (List.mem_singleton.mp h1).symm⟩
        · obtain ⟨d2, hd2, hda⟩ := ha
          exact Or.inr ⟨d2, List.mem_cons_of_mem _ hd2, hda⟩
      · rintro (ha | ha)
        · exact Or.inl (List.mem_append.mpr (Or.inl ha))
        · obtain ⟨d2, hd2, hda⟩ := ha
          rcases List.mem_cons.mp hd2 with h1 | h1
          · exact Or.inl (List.mem_append.mpr (Or.inr (by simp [h1 ▸ hda.symm])))
          · exact Or.inr ⟨d2, h1, hda⟩

theorem mem_relArchFold (rels : List ReleaseWithDownloads) (acc : List String) (a : String) :
    a ∈ rels.foldl
        (fun acc r => r.downloads.foldl (fun acc2 d => insertArch acc2 d.architecture) acc) acc ↔
      a ∈ acc ∨ ∃ rw ∈ rels, ∃ d ∈ rw.downloads, d.architecture = a := by
  induction rels generalizing acc with
  | nil => simp
  | cons rw rels ih =>
    rw [List.foldl_cons, ih, mem_archFold]
    constructor
    · rintro ((ha | ha) | ha)
      · exact Or.inl ha
      · exact Or.inr ⟨rw, List.mem_cons_self _ _, ha⟩
      · obtain ⟨rw2, h2, hd⟩ := ha
        exact Or.inr ⟨rw2, List.mem_cons_of_mem _ h2, hd⟩
    · rintro (ha | ha)
      · exact Or.inl (Or.inl ha)
      · obtain ⟨rw2, h2, hd⟩ := ha
        rcases List.mem_cons.mp h2 with h1 | h1
        · exact Or.inl (Or.inr (h1 ▸ hd))
        · exact Or.inr ⟨rw2, h1, hd⟩

theorem mem_getReleasesByDistro (db : DB) (distroId : Int) (x : ReleaseWithDownloads) :
    x ∈ getReleasesByDistro db distroId ↔
      ∃ r ∈ db.releases.filter (fun r => decide (r.distroId = distroId)),
        x = ⟨r, getDownloadsByRelease db r.id⟩ := by
  simp only [getReleasesByDistro, List.mem_map, List.mem_insertionSort]
  constructor
  · rintro ⟨r, hr, rfl⟩
    exact ⟨r, hr, rfl⟩
  · rintro ⟨r, hr, rfl⟩
    exact ⟨r, hr, rfl⟩

theorem insertionSort_head_max {α : Type} (key : α → Nat) (l : List α) (x : α) (rest : List α)
    (h : l.insertionSort (fun a b => key b ≤ key a) = x :: rest) :
    x ∈ l ∧ ∀ y ∈ l, key y ≤ key x := by
  haveI : IsTotal α (fun a b => key b ≤ key a) := ⟨fun a b => le_total _ _⟩
  haveI : IsTrans α (fun a b => key b ≤ key a) := ⟨fun a b c h1 h2 => le_trans h2 h1⟩
  have hs := List.sorted_insertionSort (fun a b => key b ≤ key a) l
  rw [h] at hs
  have hx : x ∈ l := by
    rw [← List.mem_insertionSort (r := fun a b => key b ≤ key a), h]
    exact List.mem_cons_self _ _
  refine ⟨hx, fun y hy => ?_⟩
  have hy2 : y ∈ x :: rest := by
    rw [← h, List.mem_insertionSort]
    exact hy
  rcases List.mem_cons.mp hy2 with h1 | h1
  · exact le_of_eq (by rw [h1])
  · exact List.rel_of_sorted_cons hs y h1

end Server
namespace Server

/-- Claim C8: every entry of `getDistributionsWithLatestRelease` carries,
when the distribution has releases, the version number and LTS flag of a
release of maximal release date, and the set of architecture tags of the
downloads of all its releases; with no releases it carries
`none`/`false`/`[]`. -/
theorem getDistributionsWithLatestRelease_spec (db : DB) (e : DistributionWithLatestRelease)
    (he : e ∈ getDistributionsWithLatestRelease db) :
    (db.releases.filter (fun r => decide (r.distroId = e.distribution.id)) = [] →
      e.latestVersion = none ∧ e.isLatestLts = false ∧ e.availableArchitectures = []) ∧
    (db.releases.filter (fun r => decide (r.distroId = e.distribution.id)) ≠ [] →
      ∃ r ∈ db.releases.filter (fun r => decide (r.distroId = e.distribution.id)),
        e.latestVersion = some r.versionNumber ∧ e.isLatestLts = r.isLts ∧
        ∀ r2 ∈ db.releases.filter (fun r => decide (r.distroId = e.distribution.id)),
          r2.releaseDate ≤ r.releaseDate) ∧
    (∀ a, a ∈ e.availableArchitectures ↔
      ∃ r ∈ db.releases.filter (fun r => decide (r.distroId = e.distribution.id)),
        ∃ d ∈ getDownloadsByRelease db r.id, d.architecture = a) := by
  simp only [getDistributionsWithLatestRelease, List.mem_map] at he
  obtain ⟨distro, hdistro, hdef⟩ := he
  rcases hsort : (getReleasesByDistro db distro.id).insertionSort
      (fun a b => b.release.releaseDate ≤ a.release.releaseDate) with _ | ⟨latest, rest⟩
  · rw [hsort] at hdef
    have hDR : getReleasesByDistro db distro.id = [] :=
      List.perm_nil.mp (hsort ▸ (List.perm_insertionSort _ _).symm)
    have hF : db.releases.filter (fun r => decide (r.distroId = distro.id)) = [] := by
      have := hDR
      simp only [getReleasesByDistro] at this
      have h2 := List.map_eq_nil_iff.mp this
      exact List.perm_nil.mp (h2 ▸ (List.perm_insertionSort _ _).symm)
    subst hdef
    refine ⟨fun _ => ⟨rfl, rfl, rfl⟩, fun hne => absurd hF hne, fun a => ?_⟩
    simp [hF]
  · rw [hsort] at hdef
    obtain ⟨hlatest, hmax⟩ := insertionSort_head_max (fun rw => rw.release.releaseDate)
      (getReleasesByDistro db distro.id) latest rest hsort
    obtain ⟨r0, hr0, hlr⟩ := (mem_getReleasesByDistro db distro.id latest).mp hlatest
    subst hdef
    have hFne : db.releases.filter (fun r => decide (r.distroId = distro.id)) ≠ [] := by
      intro hF
      rw [hF] at hr0
      exact absurd hr0 (List.not_mem_nil r0)
    refine ⟨fun hF => absurd hF hFne, fun _ => ?_, fun a => ?_⟩
    · refine ⟨r0, hr0, by rw [hlr], by rw [hlr], fun r2 hr2 => ?_⟩
      have hm : (⟨r2, getDownloadsByRelease db r2.id⟩ : ReleaseWithDownloads)
          ∈ getReleasesByDistro db distro.id :=
        (mem_getReleasesByDistro db distro.id _).mpr ⟨r2, hr2, rfl⟩
      have := hmax _ hm
      rw [hlr] at this
      exact this
    · rw [show (⟨distro, some latest.release.versionNumber, latest.release.isLts,
          (getReleasesByDistro db distro.id).foldl
            (fun acc r => r.downloads.foldl (fun acc2 d => insertArch acc2 d.architecture) acc)
            []⟩ : DistributionWithLatestRelease).availableArchitectures
        = (getReleasesByDistro db distro.id).foldl
            (fun acc r => r.downloads.foldl (fun acc2 d => insertArch acc2 d.architecture) acc)
            [] from rfl]
      rw [mem_relArchFold]
      simp only [List.not_mem_nil, false_or]
      constructor
      · rintro ⟨rw, hrw, d, hd, hda⟩
        obtain ⟨r, hr, rfl⟩ := (mem_getReleasesByDistro db distro.id rw).mp hrw
        exact ⟨r, hr, d, hd, hda⟩
      · rintro ⟨r, hr, d, hd, hda⟩
        exact ⟨⟨r, getDownloadsByRelease db r.id⟩,
          (mem_getReleasesByDistro db distro.id _).mpr ⟨r, hr, rfl⟩, d, hd, hda⟩

end Server
namespace Server

/-- A sample distribution row used by concrete witnesses. -/
def sampleDistro : DistributionRow :=
  ⟨1, "Ubuntu", "desc", "https://ubuntu.com", none, some "Debian", ["GNOME"]⟩

/-- A sample database: one distribution with two releases and three
downloads, used by concrete witnesses. -/
def sampleDB : DB :=
  ⟨[sampleDistro],
   [⟨10, 1, "1.0", 100, false⟩, ⟨11, 1, "2.0", 200, true⟩],
   [⟨100, 10, "amd64", "https://m.test/1.iso", none, none, none⟩,
    ⟨101, 11, "arm64", "https://m.test/2a.iso", none, none, none⟩,
    ⟨102, 11, "amd64", "https://m.test/2b.iso", none, none, none⟩]⟩

/-- The summary entry computed for `sampleDB`. -/
def sampleEntry : DistributionWithLatestRelease :=
  ⟨sampleDistro, some "2.0", true, ["arm64", "amd64"]⟩

/-- Witness for C8 on `sampleDB`: the latest-release clause and the
architecture clause at architecture "arm64". -/
theorem getDistributionsWithLatestRelease_spec_witness :
    sampleEntry ∈ getDistributionsWithLatestRelease sampleDB ∧
    (∃ r ∈ sampleDB.releases.filter (fun r => decide (r.distroId = sampleEntry.distribution.id)),
      sampleEntry.latestVersion = some r.versionNumber ∧ sampleEntry.isLatestLts = r.isLts ∧
      ∀ r2 ∈ sampleDB.releases.filter (fun r => decide (r.distroId = sampleEntry.distribution.id)),
        r2.releaseDate ≤ r.releaseDate) ∧
    ("arm64" ∈ sampleEntry.availableArchitectures ↔
      ∃ r ∈ sampleDB.releases.filter (fun r => decide (r.distroId = sampleEntry.distribution.id)),
        ∃ d ∈ getDownloadsByRelease sampleDB r.id, d.architecture = "arm64") := by
  have h := getDistributionsWithLatestRelease_spec sampleDB sampleEntry (by decide)
  exact ⟨by decide, h.2.1 (by decide), h.2.2 "arm64"⟩

/-- Claim C6: GET /api/distributions/:id responds 400 without any storage
lookup when the id parameter does not parse as a number, 404 when it parses
but no distribution row has that id, and 200 with the distribution and its
nested releases when one does. -/
theorem handleGetDistribution_spec (db : DB) (s : String) :
    (parseIntJS s = none → handleGetDistribution db s = (400, none, false)) ∧
    (∀ id, parseIntJS s = some id → getDistribution db id = none →
      handleGetDistribution db s = (404, none, true)) ∧
    (∀ id d, parseIntJS s = some id → getDistribution db id = some d →
      handleGetDistribution db s = (200, some ⟨d, getReleasesByDistro db id⟩, true)) := by
  refine ⟨fun h => ?_, fun id h hd => ?_, fun id d h hd => ?_⟩
  · simp [handleGetDistribution, h]
  · simp [handleGetDistribution, h, getDistributionWithReleases, hd]
  · simp [handleGetDistribution, h, getDistributionWithReleases, hd]

/-- Witness for C6 on `sampleDB`: "abc" gives 400 with no lookup, "2" gives
404, "1" gives 200 with the nested releases. -/
theorem handleGetDistribution_spec_witness :
    (parseIntJS "abc" = none ∧ handleGetDistribution sampleDB "abc" = (400, none, false)) ∧
    (parseIntJS "2" = some 2 ∧ getDistribution sampleDB 2 = none ∧
      handleGetDistribution sampleDB "2" = (404, none, true)) ∧
    (parseIntJS "1" = some 1 ∧ getDistribution sampleDB 1 = some sampleDistro ∧
      handleGetDistribution sampleDB "1"
        = (200, some ⟨sampleDistro, getReleasesByDistro sampleDB 1⟩, true)) :=
  ⟨⟨by decide, (handleGetDistribution_spec sampleDB "abc").1 (by decide)⟩,
   ⟨by decide, by decide, (handleGetDistribution_spec sampleDB "2").2.1 2 (by decide) (by decide)⟩,
   ⟨by decide, by decide,
    (handleGetDistribution_spec sampleDB "1").2.2 1 sampleDistro (by decide) (by decide)⟩⟩

/-- Claim C9: with the torrent argument omitted (directly, or because the
PATCH route turns an empty string into an omitted argument),
`updateDownloadUrl` leaves the other tables unchanged and, row by row,
leaves rows with a different id unchanged and changes only `isoUrl` of the
rows with the target id, preserving `torrentUrl` and every other field. -/
theorem updateDownloadUrl_frame (db : DB) (id : Int) (isoUrl : String) (t : Option String)
    (ht : t = none ∨ t = some "") :
    (updateDownloadUrl db id isoUrl (routeTorrentArg t)).1.distributions = db.distributions ∧
    (updateDownloadUrl db id isoUrl (routeTorrentArg t)).1.releases = db.releases ∧
    List.Forall₂ (fun d d2 =>
        (d.id ≠ id → d2 = d) ∧
        (d.id = id → d2.id = d.id ∧ d2.releaseId = d.releaseId ∧
          d2.architecture = d.architecture ∧ d2.isoUrl = isoUrl ∧
          d2.torrentUrl = d.torrentUrl ∧ d2.checksum = d.checksum ∧
          d2.downloadSize = d.downloadSize))
      db.downloads (updateDownloadUrl db id isoUrl (routeTorrentArg t)).1.downloads := by
  have harg : routeTorrentArg t = none := by rcases ht with rfl | rfl <;> rfl
  rw [harg]
  refine ⟨rfl, rfl, ?_⟩
  simp only [updateDownloadUrl]
  rw [List.forall₂_map_right_iff, List.forall₂_same]
  intro d _
  by_cases h : d.id = id
  · rw [if_pos h]
    exact ⟨fun hne => absurd h hne, fun _ => ⟨rfl, rfl, rfl, rfl, rfl, rfl, rfl⟩⟩
  · rw [if_neg h]
    exact ⟨fun _ => rfl, fun he => absurd he h⟩

/-- Witness for C9: a two-row download table patched at id 1 with an empty
torrent string. -/
theorem updateDownloadUrl_frame_witness :
    ((some "" : Option String) = none ∨ (some "" : Option String) = some "") ∧
    (updateDownloadUrl sampleDB 100 "https://m.test/new.iso" (routeTorrentArg (some ""))).1.releases
      = sampleDB.releases ∧
    List.Forall₂ (fun d d2 =>
        (d.id ≠ 100 → d2 = d) ∧
        (d.id = 100 → d2.id = d.id ∧ d2.releaseId = d.releaseId ∧
          d2.architecture = d.architecture ∧ d2.isoUrl = "https://m.test/new.iso" ∧
          d2.torrentUrl = d.torrentUrl ∧ d2.checksum = d.checksum ∧
          d2.downloadSize = d.downloadSize))
      sampleDB.downloads
      (updateDownloadUrl sampleDB 100 "https://m.test/new.iso" (routeTorrentArg (some ""))).1.downloads :=
  ⟨Or.inr rfl,
   (updateDownloadUrl_frame sampleDB 100 "https://m.test/new.iso" (some "") (Or.inr rfl)).2.1,
   (updateDownloadUrl_frame sampleDB 100 "https://m.test/new.iso" (some "") (Or.inr rfl)).2.2⟩

/-- Claim C10: a blank (empty or all-whitespace) query makes
`searchDistributions` return the full catalogue, identical to
`getDistributions`, which is ordered ascending by name. -/
theorem searchDistributions_blank (db : DB) (q : String) (h : jsTrim q = "") :
    searchDistributions db q = getDistributions db ∧
    (getDistributions db).Pairwise (fun a b => a.name ≤ b.name) := by
  constructor
  · simp [searchDistributions, h]
  · haveI : IsTotal DistributionRow (fun a b => a.name ≤ b.name) := ⟨fun a b => le_total _ _⟩
    haveI : IsTrans DistributionRow (fun a b => a.name ≤ b.name) :=
      ⟨fun a b c h1 h2 => le_trans h1 h2⟩
    exact List.sorted_insertionSort _ _

/-- Witness for C10: the all-whitespace query on `sampleDB`. -/
theorem searchDistributions_blank_witness :
    jsTrim "   " = "" ∧
    searchDistributions sampleDB "   " = getDistributions sampleDB ∧
    (getDistributions sampleDB).Pairwise (fun a b => a.name ≤ b.name) :=
  ⟨by decide, (searchDistributions_blank sampleDB "   " (by decide)).1,
   (searchDistributions_blank sampleDB "   " (by decide)).2⟩

end Server

namespace Links

/-- One HTTP fetch as the script observes it: a completed response with a
status code, or a thrown error (network failure, or the 8-second
AbortController timeout firing — timing itself is abstracted into the
thrown case). -/
inductive FetchOutcome
  | response (status : Nat)
  | failed
deriving DecidableEq, Repr

/-- `res.ok`: status in the range 200..299. -/
def jsOk (status : Nat) : Bool := decide (200 ≤ status) && decide (status < 300)

/-- How scripts/verify_links.ts reports one URL. -/
inductive LinkReport
  | okHead
  | okGet
  | broken
deriving DecidableEq, Repr

/-- The network's behaviour for one URL: what the HEAD request and the
(ranged) GET request would each return. -/
structure UrlNet where
  head : FetchOutcome
  get : FetchOutcome
deriving DecidableEq, Repr

/-- The per-URL classification of `verifyLinks` (scripts/verify_links.ts):
the report, and whether the fallback GET request was issued.  A HEAD that
throws is caught by the outer catch and counted broken with no fallback; a
HEAD with a non-ok status falls back to one ranged GET, accepting ok
statuses and 206. -/
def checkUrl (net : UrlNet) : LinkReport × Bool :=
  match net.head with
  | .failed => (.broken, false)
  | .response s =>
    if jsOk s then (.okHead, false)
    else
      match net.get with
      | .failed => (.broken, true)
      | .response t => if jsOk t || t == 206 then (.okGet, true) else (.broken, true)

/-- Counterexample to claim C7 as stated: when the HEAD request itself
fails (throws — e.g. the 8-second timeout), even though the fallback GET
would have returned 200, the script issues no fallback GET (the flag is
`false`) and reports the URL broken — contradicting "whenever that HEAD
request fails, exactly one fallback ranged GET request is issued, and the
URL is reported broken only if the fallback also fails". -/
theorem checkUrl_head_throw_counterexample :
    checkUrl ⟨.failed, .response 200⟩ = (.broken, false) := by decide

/-- Claim C7 as amended: the fallback GET is issued exactly when the HEAD
request completes with a non-ok status, and only then does the
ok-or-206 fallback decide reachability; a HEAD that throws is reported
broken immediately with no fallback, and an ok HEAD is reachable with no
fallback. -/
theorem checkUrl_fallback_spec (net : UrlNet) :
    (net.head = .failed → checkUrl net = (.broken, false)) ∧
    (∀ s, net.head = .response s → jsOk s = true → checkUrl net = (.okHead, false)) ∧
    (∀ s, net.head = .response s → jsOk s = false →
      (checkUrl net).2 = true ∧
      ((checkUrl net).1 = .okGet ↔
        ∃ t, net.get = .response t ∧ (jsOk t || t == 206) = true) ∧
      ((checkUrl net).1 = .broken ↔
        (net.get = .failed ∨ ∃ t, net.get = .response t ∧ (jsOk t || t == 206) = false))) := by
  obtain ⟨hd, gt⟩ := net
  refine ⟨fun h => ?_, fun s h hok => ?_, fun s h hok => ?_⟩
  · simp only at h
    subst h
    rfl
  · simp only at h
    subst h
    simp [checkUrl, hok]
  · simp only at h
    subst h
    rcases gt with t | _
    · have hcu : checkUrl ⟨.response s, .response t⟩
          = if jsOk t || t == 206 then (.okGet, true) else (.broken, true) := by
        simp [checkUrl, hok]
      by_cases hacc : (jsOk t || t == 206) = true
      · rw [hcu, if_pos hacc]
        refine ⟨rfl, ⟨fun _ => ⟨t, rfl, hacc⟩, fun _ => rfl⟩, ?_, ?_⟩
        · intro hb
          exact absurd hb (by decide)
        · rintro (hfail | ⟨t2, ht2, hf⟩)
          · exact absurd hfail (by simp)
          · simp only [FetchOutcome.response.injEq] at ht2
            subst ht2
            rw [hacc] at hf
            exact absurd hf (by decide)
      · have hacc2 : (jsOk t || t == 206) = false := by simpa using hacc
        rw [hcu, if_neg hacc]
        refine ⟨rfl, ⟨fun hb => absurd hb (by decide), ?_⟩, fun _ => Or.inr ⟨t, rfl, hacc2⟩,
          fun _ => rfl⟩
        rintro ⟨t2, ht2, htr⟩
        simp only [FetchOutcome.response.injEq] at ht2
        subst ht2
        rw [hacc2] at htr
        exact absurd htr (by decide)
    · have hcu : checkUrl ⟨.response s, .failed⟩ = (.broken, true) := by
        simp [checkUrl, hok]
      rw [hcu]
      refine ⟨rfl, ⟨fun hb => absurd hb (by decide), ?_⟩, fun _ => Or.inl rfl, fun _ => rfl⟩
      rintro ⟨t2, ht2, _⟩
      exact absurd ht2 (by simp)

/-- Witness for the amended C7: a HEAD returning 500 with a GET returning
206 — the fallback is issued and classifies the URL reachable. -/
theorem checkUrl_fallback_spec_witness :
    ((⟨.response 500, .response 206⟩ : UrlNet).head = .response 500) ∧
    jsOk 500 = false ∧
    ((checkUrl ⟨.response 500, .response 206⟩).2 = true ∧
      ((checkUrl ⟨.response 500, .response 206⟩).1 = .okGet ↔
        ∃ t, (⟨.response 500, .response 206⟩ : UrlNet).get = .response t ∧ (jsOk t || t == 206) = true) ∧
      ((checkUrl ⟨.response 500, .response 206⟩).1 = .broken ↔
        ((⟨.response 500, .response 206⟩ : UrlNet).get = .failed ∨
          ∃ t, (⟨.response 500, .response 206⟩ : UrlNet).get = .response t ∧ (jsOk t || t == 206) = false))) :=
  ⟨rfl, by decide,
   (checkUrl_fallback_spec ⟨.response 500, .response 206⟩).2.2 500 rfl (by decide)⟩

end Links
